import Mathlib

/-!
Verification development for the vera-counter listing/CSV statistics code.

The TypeScript source is shallowly embedded: text is `List Char`, JavaScript
numbers are modelled exactly (`JsNum` below: NaN, signed infinities, or an
exact rational) — IEEE-754 rounding and overflow are abstracted away, which no
claim here depends on.  `String.prototype.localeCompare` is modelled as
code-point lexicographic comparison (on the fixed-width date strings and
bucket keys involved, that is the order the comparisons are specified to
induce).  `Date.parse` is a JavaScript builtin whose exact value is
irrelevant to every claim, so functions that call it take the parse function
as an explicit argument.
-/

namespace Vera

/-- Text: JavaScript strings, modelled as lists of characters. -/
abbrev Str := List Char

/-- The character classes `String.prototype.trim` removes: ECMAScript
WhiteSpace (TAB, VT, FF, SP, NBSP, ZWNBSP, Unicode Zs) and LineTerminator
(LF, CR, LS, PS). -/
def jsIsWhite (c : Char) : Bool :=
  c.toNat = 0x9 ∨ c.toNat = 0xA ∨ c.toNat = 0xB ∨ c.toNat = 0xC ∨ c.toNat = 0xD ∨
  c.toNat = 0x20 ∨ c.toNat = 0xA0 ∨ c.toNat = 0x1680 ∨
  (0x2000 ≤ c.toNat ∧ c.toNat ≤ 0x200A) ∨
  c.toNat = 0x2028 ∨ c.toNat = 0x2029 ∨ c.toNat = 0x202F ∨ c.toNat = 0x205F ∨
  c.toNat = 0x3000 ∨ c.toNat = 0xFEFF

/-- `String.prototype.trim`: strip JS whitespace from both ends. -/
def jsTrim (s : Str) : Str :=
  ((s.dropWhile jsIsWhite).reverse.dropWhile jsIsWhite).reverse

/-- Helper for `splitOnChar`: accumulates the current field reversed. -/
def splitOnCharAux (sep : Char) : Str → Str → List Str
  | [], acc => [acc.reverse]
  | c :: rest, acc =>
    if c = sep then acc.reverse :: splitOnCharAux sep rest []
    else splitOnCharAux sep rest (c :: acc)

/-- `String.prototype.split` with a one-character separator string. -/
def splitOnChar (sep : Char) (s : Str) : List Str :=
  splitOnCharAux sep s []

/-- Helper for `splitLines`: accumulates the current line reversed. -/
def splitLinesAux : Str → Str → List Str
  | [], acc => [acc.reverse]
  | '\r' :: '\n' :: rest, acc => acc.reverse :: splitLinesAux rest []
  | '\n' :: rest, acc => acc.reverse :: splitLinesAux rest []
  | c :: rest, acc => splitLinesAux rest (c :: acc)

/-- `csv.split(/\r?\n/)`: split at each CRLF or lone LF (a lone CR is kept). -/
def splitLines (s : Str) : List Str :=
  splitLinesAux s []

/-- `String.prototype.toLowerCase`, restricted to the ASCII range (the only
characters whose lowercase image can equal a character of `"day,count"`). -/
def asciiLower (s : Str) : Str :=
  s.map Char.toLower

/-- ASCII decimal digit test (`\d` of a JS RegExp without the `u` flag on
the characters that matter). -/
def isDigitChar (c : Char) : Bool :=
  '0' ≤ c ∧ c ≤ '9'

/-- Value of a string of decimal digits. -/
def natOfDigits (ds : Str) : ℕ :=
  ds.foldl (fun n c => n * 10 + (c.toNat - 48)) 0

/-- ASCII hex digit test. -/
def isHexChar (c : Char) : Bool :=
  isDigitChar c ∨ ('a' ≤ c ∧ c ≤ 'f') ∨ ('A' ≤ c ∧ c ≤ 'F')

/-- Value of one hex digit. -/
def hexVal (c : Char) : ℕ :=
  if isDigitChar c then c.toNat - 48
  else if 'a' ≤ c ∧ c ≤ 'f' then c.toNat - 87
  else c.toNat - 55

/-- Value of a string of hex digits. -/
def natOfHexDigits (ds : Str) : ℕ :=
  ds.foldl (fun n c => n * 16 + hexVal c) 0

/-- A JavaScript number as far as the embedded code can observe it: NaN, a
signed infinity, or a finite value (kept exact as a rational). -/
inductive JsNum where
  | nan : JsNum
  | inf (neg : Bool) : JsNum
  | fin (q : ℚ) : JsNum
  deriving DecidableEq

/-- `Number.isNaN`. -/
def JsNum.isNaN : JsNum → Bool
  | .nan => true
  | _ => false

/-- `Number.isInteger(x) && x >= 0`: the CSV count acceptance test. -/
def JsNum.isNonNegInt : JsNum → Bool
  | .fin q => q.den = 1 ∧ 0 ≤ q
  | _ => false

/-- The natural number a `JsNum` accepted by `isNonNegInt` denotes. -/
def JsNum.toCount : JsNum → ℕ
  | .fin q => q.num.toNat
  | _ => 0

/-- ExponentPart of a StrDecimalLiteral: the text after `e`/`E`. -/
def readExponent (t : Str) : Option ℤ :=
  match t with
  | '+' :: ds => if ds ≠ [] ∧ ds.all isDigitChar then some (natOfDigits ds) else none
  | '-' :: ds => if ds ≠ [] ∧ ds.all isDigitChar then some (-(natOfDigits ds : ℤ)) else none
  | ds => if ds ≠ [] ∧ ds.all isDigitChar then some (natOfDigits ds) else none

/-- StrUnsignedDecimalLiteral without the `Infinity` production:
`Digits [. Digits] [Exponent]` or `. Digits [Exponent]`, valued exactly. -/
def readUnsignedDec (t : Str) : Option ℚ :=
  let ip := t.takeWhile isDigitChar
  let r1 := t.drop ip.length
  match r1 with
  | [] => if ip = [] then none else some (natOfDigits ip)
  | '.' :: r2 =>
    let fp := r2.takeWhile isDigitChar
    let r3 := r2.drop fp.length
    if ip = [] ∧ fp = [] then none
    else
      let base : ℚ := (natOfDigits ip : ℚ) + (natOfDigits fp : ℚ) / ((10 : ℚ) ^ fp.length)
      match r3 with
      | [] => some base
      | 'e' :: r4 => (readExponent r4).map (fun k => base * (10 : ℚ) ^ k)
      | 'E' :: r4 => (readExponent r4).map (fun k => base * (10 : ℚ) ^ k)
      | _ => none
  | 'e' :: r4 =>
    if ip = [] then none
    else (readExponent r4).map (fun k => (natOfDigits ip : ℚ) * (10 : ℚ) ^ k)
  | 'E' :: r4 =>
    if ip = [] then none
    else (readExponent r4).map (fun k => (natOfDigits ip : ℚ) * (10 : ℚ) ^ k)
  | _ => none

/-- NonDecimalIntegerLiteral: `0x`/`0X` hex, `0o`/`0O` octal, `0b`/`0B`
binary (no sign allowed). -/
def readNonDecimal (t : Str) : Option ℚ :=
  match t with
  | '0' :: x :: ds =>
    if x = 'x' ∨ x = 'X' then
      if ds ≠ [] ∧ ds.all isHexChar then some (natOfHexDigits ds) else none
    else if x = 'o' ∨ x = 'O' then
      if ds ≠ [] ∧ ds.all (fun c => '0' ≤ c ∧ c ≤ '7') then
        some (ds.foldl (fun n c => n * 8 + (c.toNat - 48)) 0 : ℕ) else none
    else if x = 'b' ∨ x = 'B' then
      if ds ≠ [] ∧ ds.all (fun c => c = '0' ∨ c = '1') then
        some (ds.foldl (fun n c => n * 2 + (c.toNat - 48)) 0 : ℕ) else none
    else none
  | _ => none

/-- `Number(string)`: ECMAScript StringNumericLiteral. Whitespace-only is 0;
otherwise the whole (trimmed) text must be one numeric literal, else NaN. -/
def jsNumberOfString (s : Str) : JsNum :=
  let t := jsTrim s
  if t = [] then .fin 0
  else
    match readNonDecimal t with
    | some q => .fin q
    | none =>
      let signed : Bool × Str :=
        match t with
        | '+' :: r => (false, r)
        | '-' :: r => (true, r)
        | r => (false, r)
      if signed.2 = ("Infinity".toList) then .inf signed.1
      else
        match readUnsignedDec signed.2 with
        | some q => .fin (if signed.1 then -q else q)
        | none => .nan

/-! ### CSV daily-counts module (`verified-contracts-daily`) -/

/-- One point of the daily series.  The count is stored as the natural
number its accepted `JsNum` denotes (the parser admits exactly the
non-negative integers). -/
structure VerifiedContractsDailyPoint where
  day : Str
  count : ℕ
  deriving DecidableEq

/-- `parseLine`'s error for a row of the wrong shape. -/
def msgInvalidRow (line : Str) : Str :=
  ("Invalid CSV row: \"".toList) ++ line ++ ("\"".toList)

/-- `parseLine`'s error for a bad count value. -/
def msgInvalidCount (line : Str) : Str :=
  ("Invalid CSV count value: \"".toList) ++ line ++ ("\"".toList)

/-- `parseCsv`'s error for a header mismatch. -/
def msgBadHeader (header : Str) : Str :=
  ("Unexpected CSV header. Expected \"day,count\" but got \"".toList) ++
    header ++ ("\".".toList)

/-- The regex `/^\d{4}-\d{2}-\d{2}$/`. -/
def isDateShape (s : Str) : Bool :=
  match s with
  | [y1, y2, y3, y4, h1, m1, m2, h2, d1, d2] =>
    isDigitChar y1 ∧ isDigitChar y2 ∧ isDigitChar y3 ∧ isDigitChar y4 ∧
    h1 = '-' ∧ isDigitChar m1 ∧ isDigitChar m2 ∧ h2 = '-' ∧
    isDigitChar d1 ∧ isDigitChar d2
  | _ => false

/-- The number the second CSV field yields: a missing field is JS
`undefined`, and `Number(undefined)` is NaN; a present field is trimmed and
read as a numeric string. -/
def countNumOfField : Option Str → JsNum
  | none => .nan
  | some rc => jsNumberOfString (jsTrim rc)

/-- `parseLine`: split on commas, validate the date shape and field count,
then require a non-negative integer count. -/
def parseLine (line : Str) : Except Str VerifiedContractsDailyPoint :=
  let fields := splitOnChar ',' line
  let day := jsTrim (fields.headD [])
  let count := countNumOfField fields[1]?
  if fields.length > 2 ∨ ¬ isDateShape day then .error (msgInvalidRow line)
  else if ¬ count.isNonNegInt then .error (msgInvalidCount line)
  else .ok ⟨day, count.toCount⟩

/-- JS `Map.prototype.set`: replace in place (keeping the entry's original
position) or append a fresh entry. -/
def mapSet {α : Type} (m : List (Str × α)) (k : Str) (v : α) : List (Str × α) :=
  match m with
  | [] => [(k, v)]
  | (k', v') :: rest => if k' = k then (k, v) :: rest else (k', v') :: mapSet rest k v

/-- JS `Map.prototype.get` (`undefined` as `none`). -/
def mapGet {α : Type} (m : List (Str × α)) (k : Str) : Option α :=
  (m.find? (fun p => p.1 = k)).map (·.2)

/-- `dayCounts.get(day) ?? 0`. -/
def mapGetD (m : List (Str × ℕ)) (k : Str) : ℕ :=
  (mapGet m k).getD 0

/-- One CSV row folded into the day-count map:
`dayCounts.set(day, (dayCounts.get(day) ?? 0) + count)`. -/
def addDayCount (m : List (Str × ℕ)) (day : Str) (count : ℕ) : List (Str × ℕ) :=
  mapSet m day (mapGetD m day + count)

/-- The non-blank trimmed lines of the CSV text. -/
def csvLines (csv : Str) : List Str :=
  ((splitLines csv).map jsTrim).filter (fun l => l ≠ [])

/-- `parseCsv`: header check, per-row parse folding duplicate days by sum,
then sort by day ascending (the `localeCompare` comparator, modelled as the
lexicographic order on `List Char`). -/
def parseCsv (csv : Str) : Except Str (List VerifiedContractsDailyPoint) :=
  match csvLines csv with
  | [] => .ok []
  | header :: rows =>
    if asciiLower header ≠ ("day,count".toList) then .error (msgBadHeader header)
    else do
      let m ← rows.foldlM
        (fun m row => do
          let entry ← parseLine row
          pure (addDayCount m entry.day entry.count))
        ([] : List (Str × ℕ))
      pure (List.insertionSort (fun a b => a.day ≤ b.day)
        (m.map (fun p => (⟨p.1, p.2⟩ : VerifiedContractsDailyPoint))))

/-- Rounding to two decimals: `Number(x.toFixed(2))`, which picks the
integer numerator closest to `100 * x`, ties to the larger. -/
def round2 (q : ℚ) : ℚ :=
  ((⌊q * 100 + 1 / 2⌋ : ℤ) : ℚ) / 100

/-- `getRecentAverage`: mean of `series.slice(-windowSize)`, to two
decimals; 0 on an empty slice.  (`slice(-w)` keeps the last
`min w length` elements for `w > 0`, the whole array for `w = 0`.) -/
def getRecentAverage (series : List VerifiedContractsDailyPoint) (windowSize : ℕ) : ℚ :=
  let recent := if windowSize = 0 then series else series.drop (series.length - windowSize)
  if recent.isEmpty then 0
  else round2 ((recent.foldl (fun sum e => sum + (e.count : ℚ)) 0) / recent.length)

/-- The derived daily summary. -/
structure VerifiedContractsDailySummary where
  total : ℕ
  latestDay : Option Str
  latestCount : Option ℕ
  average7d : ℚ
  average30d : ℚ
  deriving DecidableEq

/-- `summarizeSeries`. -/
def summarizeSeries (series : List VerifiedContractsDailyPoint) : VerifiedContractsDailySummary :=
  { total := series.foldl (fun sum e => sum + e.count) 0
    latestDay := (series.getLast?).map (fun e => e.day)
    latestCount := (series.getLast?).map (fun e => e.count)
    average7d := getRecentAverage series 7
    average30d := getRecentAverage series 30 }

/-! ### XML listing parser (`verifier-alliance`) -/

/-- Fuel-driven core of `replaceAll` (one character or one pattern occurrence
is consumed per step, so `s.length` fuel always suffices). -/
def replaceAllFuel (pat rep : Str) : ℕ → Str → Str
  | 0, s => s
  | _ + 1, [] => []
  | f + 1, c :: rest =>
    if pat ≠ [] ∧ pat.isPrefixOf (c :: rest) then
      rep ++ replaceAllFuel pat rep f ((c :: rest).drop pat.length)
    else c :: replaceAllFuel pat rep f rest

/-- `String.prototype.replace` with a global literal pattern: replace every
(leftmost, non-overlapping) occurrence. -/
def replaceAll (pat rep : Str) (s : Str) : Str :=
  replaceAllFuel pat rep s.length s

/-- `decodeXml`: the five sequential global replacements of the source, in
its order (`&amp;` first). -/
def decodeXml (value : Str) : Str :=
  replaceAll ("&#39;".toList) ("'".toList)
    (replaceAll ("&quot;".toList) ("\"".toList)
      (replaceAll ("&gt;".toList) (">".toList)
        (replaceAll ("&lt;".toList) ("<".toList)
          (replaceAll ("&amp;".toList) ("&".toList) value))))

/-- Modelled from the spec: the single-pass reference decoder of the five
markup escapes, against which claim C10 compares `decodeXml`.  It scans the
text once, left to right, replacing each escape occurrence by its character;
replacement output is never rescanned. -/
def decodeXmlSinglePassFuel : ℕ → Str → Str
  | 0, s => s
  | _ + 1, [] => []
  | f + 1, c :: rest =>
    if ("&amp;".toList).isPrefixOf (c :: rest) then
      '&' :: decodeXmlSinglePassFuel f ((c :: rest).drop 5)
    else if ("&lt;".toList).isPrefixOf (c :: rest) then
      '<' :: decodeXmlSinglePassFuel f ((c :: rest).drop 4)
    else if ("&gt;".toList).isPrefixOf (c :: rest) then
      '>' :: decodeXmlSinglePassFuel f ((c :: rest).drop 4)
    else if ("&quot;".toList).isPrefixOf (c :: rest) then
      '"' :: decodeXmlSinglePassFuel f ((c :: rest).drop 6)
    else if ("&#39;".toList).isPrefixOf (c :: rest) then
      '\'' :: decodeXmlSinglePassFuel f ((c :: rest).drop 5)
    else c :: decodeXmlSinglePassFuel f rest

/-- The single-pass reference decoder (claim C10's comparison point). -/
def decodeXmlSinglePass (s : Str) : Str :=
  decodeXmlSinglePassFuel s.length s

/-- First occurrence of `pat` in a text: `some (before, after)` where the
text is `before ++ pat ++ after` and `before` holds no occurrence. -/
def splitFirst (pat : Str) : Str → Option (Str × Str)
  | [] => if pat.isPrefixOf ([] : Str) then some ([], []) else none
  | c :: rest =>
    if pat.isPrefixOf (c :: rest) then some ([], (c :: rest).drop pat.length)
    else (splitFirst pat rest).map (fun p => (c :: p.1, p.2))

/-- `getTagValue`: the non-greedy regex match of `<tag>...</tag>` — the
first opening tag followed by the first closing tag after it — trimmed and
entity-decoded.  (If the first opening tag has no later closing tag, no
later position can start a match either.) -/
def getTagValue (source : Str) (tag : Str) : Option Str :=
  match splitFirst (('<' :: tag) ++ ['>']) source with
  | none => none
  | some (_, rest) =>
    match splitFirst (('<' :: '/' :: tag) ++ ['>']) rest with
    | none => none
    | some (inner, _) => some (decodeXml (jsTrim inner))

/-- Fuel-driven core of `contentsBlocks` (each step consumes at least the
opening tag, so `s.length` fuel suffices). -/
def contentsBlocksFuel : ℕ → Str → List Str
  | 0, _ => []
  | f + 1, s =>
    match splitFirst ("<Contents>".toList) s with
    | none => []
    | some (_, rest) =>
      match splitFirst ("</Contents>".toList) rest with
      | none => []
      | some (inner, rest2) =>
        (("<Contents>".toList) ++ inner ++ ("</Contents>".toList)) ::
          contentsBlocksFuel f rest2

/-- `xml.match(/<Contents>[\s\S]*?<\/Contents>/g) ?? []`: every non-greedy
`<Contents>...</Contents>` block, in order. -/
def contentsBlocks (s : Str) : List Str :=
  contentsBlocksFuel s.length s

/-- One object of a listing page. `size` keeps the raw `Number(...)` result:
a missing `Size` tag is JS `null` and `Number(null)` is `0`. -/
structure ListingObject where
  key : Str
  size : JsNum
  lastModified : Str
  deriving DecidableEq

/-- One parsed listing page. -/
structure ParsedListingPage where
  objects : List ListingObject
  isTruncated : Bool
  nextMarker : Option Str
  nextContinuationToken : Option Str
  deriving DecidableEq

/-- `Number(getTagValue(block, "Size"))`: an absent tag is JS `null`, and
`Number(null)` is `0`. -/
def blockSize (block : Str) : JsNum :=
  match getTagValue block ("Size".toList) with
  | none => .fin 0
  | some s => jsNumberOfString s

/-- The body of the per-block loop of `parseListingXml`: `some` exactly when
the block is pushed.  The guard is the source's
`!key || !lastModified || Number.isNaN(size)` (JS truthiness: absent or
empty strings are skipped; an absent size parses as 0 and passes). -/
def entryOfBlock (block : Str) : Option ListingObject :=
  let key := getTagValue block ("Key".toList)
  let size := blockSize block
  let lastModified := getTagValue block ("LastModified".toList)
  match key, lastModified with
  | some k, some l =>
    if k = [] ∨ l = [] ∨ size.isNaN then none else some ⟨k, size, l⟩
  | _, _ => none

/-- `parseListingXml`. -/
def parseListingXml (xml : Str) : ParsedListingPage :=
  { objects := (contentsBlocks xml).filterMap entryOfBlock
    isTruncated := asciiLower ((getTagValue xml ("IsTruncated".toList)).getD []) = ("true".toList)
    nextMarker := getTagValue xml ("NextMarker".toList)
    nextContinuationToken := getTagValue xml ("NextContinuationToken".toList) }

/-! ### Paginated fetcher -/

/-- `MAX_LISTING_PAGES`. -/
def MAX_LISTING_PAGES : ℕ := 250

/-- `DATASET_PREFIX` (`"v2/"`). -/
def DATASET_PREFIX : Str := "v2/".toList

/-- `VERIFIER_ALLIANCE_ORIGIN`. -/
def VERIFIER_ALLIANCE_ORIGIN : Str := "https://export.verifieralliance.org".toList

/-- JS truthiness of a `string | null` value: `false` for `null` and for the
empty string. -/
def optTruthy : Option Str → Bool
  | none => false
  | some s => !s.isEmpty

/-- The composite cycle-guard key `${marker ?? ""}|${continuationToken ?? ""}`. -/
def tokenKeyOf (marker continuationToken : Option Str) : Str :=
  (marker.getD []) ++ '|' :: (continuationToken.getD [])

/-- One issued listing request, recorded as its query parameters (the URL
serialization adds nothing the claims depend on). -/
structure ListingRequest where
  pfx : Str
  listType2 : Bool
  continuationToken : Option Str
  marker : Option Str
  deriving DecidableEq

/-- URL construction of one loop iteration: always the prefix; with a truthy
continuation token also `list-type=2` and the token; else with a truthy
marker the marker parameter. -/
def buildRequest (pfx : Str) (marker continuationToken : Option Str) : ListingRequest :=
  if optTruthy continuationToken then
    { pfx := pfx, listType2 := true, continuationToken := continuationToken, marker := none }
  else if optTruthy marker then
    { pfx := pfx, listType2 := false, continuationToken := none, marker := marker }
  else
    { pfx := pfx, listType2 := false, continuationToken := none, marker := none }

/-- The local state of `fetchAllObjects`' loop.  `processed` is an auxiliary
trace (not a variable of the source): the concatenation, in processing
order, of every parsed page's objects, used to state last-seen-wins. -/
structure LoopState where
  map : List (Str × ListingObject)
  pageUrls : List ListingRequest
  seenTokens : List Str
  marker : Option Str
  continuationToken : Option Str
  failed : Bool
  processed : List ListingObject
  deriving DecidableEq

/-- The initial loop state. -/
def initialLoopState : LoopState :=
  { map := [], pageUrls := [], seenTokens := [], marker := none,
    continuationToken := none, failed := false, processed := [] }

/-- The `for (page = 0; page < MAX_LISTING_PAGES; page++)` loop of
`fetchAllObjects`, over an oracle giving the response body of the `page`-th
request (`none` = a non-success HTTP status, which aborts the whole run).
The remaining iteration count drives the recursion. -/
def fetchGo (responses : ℕ → Option Str) (pfx : Str) : ℕ → ℕ → LoopState → LoopState
  | _, 0, st => st
  | page, r + 1, st =>
    let tk := tokenKeyOf st.marker st.continuationToken
    if tk ∈ st.seenTokens then st
    else
      let st1 := { st with
        seenTokens := st.seenTokens ++ [tk],
        pageUrls := st.pageUrls ++ [buildRequest pfx st.marker st.continuationToken] }
      match responses page with
      | none => { st1 with failed := true }
      | some xml =>
        let parsed := parseListingXml xml
        let st2 := { st1 with
          map := parsed.objects.foldl (fun m o => mapSet m o.key o) st1.map,
          processed := st1.processed ++ parsed.objects }
        if parsed.isTruncated = false then st2
        else if optTruthy parsed.nextContinuationToken then
          fetchGo responses pfx (page + 1) r
            { st2 with continuationToken := parsed.nextContinuationToken, marker := none }
        else
          let marker' : Option Str :=
            match parsed.nextMarker with
            | some m => some m
            | none => (parsed.objects.getLast?).map (fun o => o.key)
          if optTruthy marker' then
            fetchGo responses pfx (page + 1) r
              { st2 with marker := marker', continuationToken := none }
          else { st2 with marker := marker', continuationToken := none }

/-- The loop's final state. -/
def fetchFinalState (responses : ℕ → Option Str) (pfx : Str) : LoopState :=
  fetchGo responses pfx 0 MAX_LISTING_PAGES initialLoopState

/-- `fetchAllObjects`: on success, the map's values sorted by key ascending
(the `localeCompare` comparator, modelled as the lexicographic order), plus
the ordered request list. -/
def fetchAllObjects (responses : ℕ → Option Str) (pfx : Str) :
    Except Str (List ListingObject × List ListingRequest) :=
  let st := fetchFinalState responses pfx
  if st.failed then .error ("Upstream listing request failed.".toList)
  else .ok
    (List.insertionSort (fun a b => a.key ≤ b.key) (st.map.map (fun p => p.2)),
      st.pageUrls)

/-! ### Category classifier and aggregator -/

/-- `TABLES`, in declared order. -/
def TABLES : List Str :=
  ["verified_contracts".toList, "sources".toList,
    "compiled_contracts_sources".toList, "compiled_contracts".toList,
    "contract_deployments".toList, "contracts".toList, "code".toList]

/-- `key.slice(DATASET_PREFIX.length).split("/")[0] ?? ""`: the first path
segment after the dataset prefix (the head of a `split` is the text before
the first separator). -/
def topLevelSegment (key : Str) : Str :=
  (key.drop DATASET_PREFIX.length).takeWhile (fun c => c ≠ '/')

/-- Whether one table name matches the first path segment: equal exactly,
or the segment extends the name past a dot. -/
def tableMatches (topLevel name : Str) : Bool :=
  topLevel = name ∨ (name ++ ['.']).isPrefixOf topLevel

/-- `getTableFromKey`: inside the dataset prefix, the first table of
`TABLES` that matches the first path segment. -/
def getTableFromKey (key : Str) : Option Str :=
  if ¬ (DATASET_PREFIX.isPrefixOf key) then none
  else TABLES.find? (fun name => tableMatches (topLevelSegment key) name)

/-- `BYTES_PER_GB`. -/
def BYTES_PER_GB : ℕ := 1024 ^ 3

/-- JS `+` on numbers, on the observable `JsNum` values (exact on finite
values; `NaN` propagates; opposite infinities give `NaN`). -/
def jsAdd : JsNum → JsNum → JsNum
  | .nan, _ => .nan
  | _, .nan => .nan
  | .inf s, .inf t => if s = t then .inf s else .nan
  | .inf s, .fin _ => .inf s
  | .fin _, .inf t => .inf t
  | .fin a, .fin b => .fin (a + b)

/-- `toGB`: division by the positive constant `BYTES_PER_GB`. -/
def toGB (bytes : JsNum) : JsNum :=
  match bytes with
  | .nan => .nan
  | .inf s => .inf s
  | .fin a => .fin (a / (BYTES_PER_GB : ℚ))

/-- JS `>` on numbers: `false` whenever either side is NaN. -/
def jsGt : JsNum → JsNum → Bool
  | .nan, _ => false
  | _, .nan => false
  | .inf a, .inf b => a = false ∧ b = true
  | .inf a, .fin _ => a = false
  | .fin _, .inf b => b = true
  | .fin a, .fin b => b < a

/-- `pickLatest`, over an explicit model `dp` of the `Date.parse` builtin:
a falsy current value (null or empty) yields the candidate; otherwise the
candidate wins exactly on a strictly greater parsed instant. -/
def pickLatest (dp : Str → JsNum) (current : Option Str) (candidate : Str) : Str :=
  match current with
  | none => candidate
  | some c =>
    if c = [] then candidate
    else if jsGt (dp candidate) (dp c) then candidate else c

/-- Per-table statistics (`sizeBytes`/`sizeGB` keep the raw JS arithmetic
values). -/
structure TableStats where
  table : Str
  files : ℕ
  sizeBytes : JsNum
  sizeGB : JsNum
  latestUpdate : Option Str
  endpoint : Str
  deriving DecidableEq

/-- `emptyTableStat`. -/
def emptyTableStat (table : Str) : TableStats :=
  { table := table, files := 0, sizeBytes := .fin 0, sizeGB := .fin 0,
    latestUpdate := none,
    endpoint := VERIFIER_ALLIANCE_ORIGIN ++ ("/?prefix=".toList) ++
      DATASET_PREFIX ++ table ++ ['/'] }

/-- The initial per-table map of `getVerifierAllianceStats`. -/
def initialTableMap : List (Str × TableStats) :=
  TABLES.map (fun table => (table, emptyTableStat table))

/-- One object folded into the per-table map (the per-object body of the
aggregation loop, minus the global accumulators). -/
def accumulateObject (dp : Str → JsNum) (tm : List (Str × TableStats))
    (o : ListingObject) : List (Str × TableStats) :=
  match getTableFromKey o.key with
  | none => tm
  | some table =>
    match mapGet tm table with
    | none => tm
    | some stat =>
      mapSet tm table { stat with
        files := stat.files + 1,
        sizeBytes := jsAdd stat.sizeBytes o.size,
        latestUpdate := some (pickLatest dp stat.latestUpdate o.lastModified) }

/-- The global accumulators of the aggregation loop. -/
structure AggregateTotals where
  totalBytes : JsNum
  latestGlobal : Option Str
  deriving DecidableEq

/-- The whole aggregation loop of `getVerifierAllianceStats` over the
deduplicated object list: global byte total and latest timestamp, plus the
per-table map. -/
def aggregateLoop (dp : Str → JsNum) (objects : List ListingObject) :
    AggregateTotals × List (Str × TableStats) :=
  objects.foldl
    (fun acc o =>
      (⟨jsAdd acc.1.totalBytes o.size, some (pickLatest dp acc.1.latestGlobal o.lastModified)⟩,
        accumulateObject dp acc.2 o))
    (⟨.fin 0, none⟩, initialTableMap)

/-- The per-table output array: one entry per declared table, in declared
order, with the derived gigabyte value filled in at the end. -/
def aggregateTables (dp : Str → JsNum) (objects : List ListingObject) : List TableStats :=
  let tableMap := (aggregateLoop dp objects).2
  TABLES.map (fun table =>
    let stat := (mapGet tableMap table).getD (emptyTableStat table)
    { stat with sizeGB := toGB stat.sizeBytes })

/-! ### Statement-side definitions -/

/-- The per-line failure condition of claim C5, in the claim's terms: more
than two comma-separated fields, a first field without the 4-2-2 date
shape, or a second field that does not read as a non-negative integer
(a missing second field is JS `undefined` and reads as NaN). -/
def rowBad (row : Str) : Bool :=
  let fields := splitOnChar ',' row
  fields.length > 2 ∨ ¬ isDateShape (jsTrim (fields.headD [])) ∨
    ¬ (countNumOfField fields[1]?).isNonNegInt

/-- An error message that names a line: the line occurs verbatim inside it. -/
def namesLine (msg line : Str) : Prop :=
  ∃ p q, msg = p ++ line ++ q

/-- The last `min n length` entries of a list (claim C6's window). -/
def lastEntries {α : Type} (l : List α) (n : ℕ) : List α :=
  (l.reverse.take n).reverse

/-- The trace entry a key's kept record must equal: the last object with
that key in the processing order (claim C3's last-seen-wins). -/
def lastWithKey (trace : List ListingObject) (k : Str) : Option ListingObject :=
  (trace.filter (fun o => o.key = k)).getLast?

/-- Concrete counterexample page for claim C2: a block whose `Size`
sub-field is absent. -/
def xmlMissingSize : Str :=
  "<Contents><Key>k</Key><LastModified>t</LastModified></Contents>".toList

/-- Concrete CSV of the claim C4 example rows. -/
def exCsv : Str :=
  "day,count\n2024-01-01,3\n2024-01-01,5".toList

/-- Concrete listing page for the claim C3 and C8 witnesses: two entries,
not truncated. -/
def xmlWitness : Str :=
  ("<Contents><Key>v2/sources/b</Key><Size>7</Size><LastModified>t1</LastModified></Contents>" ++
   "<Contents><Key>v2/aaa</Key><Size>1</Size><LastModified>t2</LastModified></Contents>").toList

/-- Concrete response oracle for the claim C3 witness. -/
def respWitness : ℕ → Option Str := fun _ => some xmlWitness

/-- The objects the claim C3 witness run returns (sorted, deduplicated). -/
def objsWitness : List ListingObject :=
  [⟨"v2/aaa".toList, .fin 1, "t2".toList⟩,
    ⟨"v2/sources/b".toList, .fin 7, "t1".toList⟩]

/-- The single request the claim C3 witness run issues. -/
def reqsWitness : List ListingRequest :=
  [⟨DATASET_PREFIX, false, none, none⟩]

instance : IsTotal ListingObject (fun a b => a.key ≤ b.key) :=
  ⟨fun a b => le_total a.key b.key⟩

instance : IsTrans ListingObject (fun a b => a.key ≤ b.key) :=
  ⟨fun _ _ _ hab hbc => le_trans hab hbc⟩

instance : IsTotal VerifiedContractsDailyPoint (fun a b => a.day ≤ b.day) :=
  ⟨fun a b => le_total a.day b.day⟩

instance : IsTrans VerifiedContractsDailyPoint (fun a b => a.day ≤ b.day) :=
  ⟨fun _ _ _ hab hbc => le_trans hab hbc⟩

/-! ### Helper lemmas -/

theorem mapGet_nil {α : Type} (k : Str) : mapGet ([] : List (Str × α)) k = none := rfl

theorem mapGet_cons {α : Type} (a : Str) (b : α) (m : List (Str × α)) (k : Str) :
    mapGet ((a, b) :: m) k = if a = k then some b else mapGet m k := by
  by_cases h : a = k
  · simp [mapGet, List.find?_cons_of_pos, h]
  · rw [if_neg h, mapGet, mapGet, List.find?_cons]
    simp [h]

theorem mapGet_mapSet {α : Type} (m : List (Str × α)) (k k' : Str) (v : α) :
    mapGet (mapSet m k v) k' = if k = k' then some v else mapGet m k' := by
  induction m with
  | nil => simp [mapSet, mapGet_cons, mapGet_nil]
  | cons p m ih =>
    obtain ⟨a, b⟩ := p
    rw [mapSet]
    by_cases hak : a = k
    · rw [if_pos hak, mapGet_cons, mapGet_cons]
      by_cases hkk : k = k'
      · rw [if_pos hkk, if_pos hkk]
      · rw [if_neg hkk, if_neg hkk, if_neg (fun hh => hkk (hak.symm.trans hh))]
    · rw [if_neg hak, mapGet_cons, mapGet_cons, ih]
      by_cases hak' : a = k'
      · subst hak'
        rw [if_pos rfl, if_neg (fun h => hak h.symm), if_pos rfl]
      · rw [if_neg hak', if_neg hak']

theorem keys_mapSet {α : Type} (m : List (Str × α)) (k : Str) (v : α) :
    (mapSet m k v).map Prod.fst =
      if k ∈ m.map Prod.fst then m.map Prod.fst else m.map Prod.fst ++ [k] := by
  induction m with
  | nil => simp [mapSet]
  | cons p m ih =>
    obtain ⟨a, b⟩ := p
    rw [mapSet]
    by_cases hak : a = k
    · rw [if_pos hak, if_pos (by rw [List.map_cons, ← hak]; exact List.mem_cons_self _ _)]
      rw [List.map_cons, List.map_cons, hak]
    · rw [if_neg hak]
      rw [List.map_cons, List.map_cons, ih]
      by_cases hk : k ∈ m.map Prod.fst
      · rw [if_pos hk, if_pos (List.mem_cons_of_mem _ hk)]
      · rw [if_neg hk,
          if_neg (by rw [List.mem_cons]; rintro (h | h); exact hak h.symm; exact hk h)]
        rfl

theorem nodup_keys_mapSet {α : Type} {m : List (Str × α)} (k : Str) (v : α)
    (h : (m.map Prod.fst).Nodup) : ((mapSet m k v).map Prod.fst).Nodup := by
  rw [keys_mapSet]
  by_cases hk : k ∈ m.map Prod.fst
  · rw [if_pos hk]; exact h
  · rw [if_neg hk]
    rw [List.nodup_append]
    refine ⟨h, List.nodup_singleton _, ?_⟩
    intro x hx hxk
    rw [List.mem_singleton] at hxk
    subst hxk
    exact hk hx

theorem mem_mapSet {α : Type} {m : List (Str × α)} {k : Str} {v : α} {p : Str × α}
    (h : p ∈ mapSet m k v) : p = (k, v) ∨ p ∈ m := by
  induction m with
  | nil => simpa [mapSet] using h
  | cons q m ih =>
    obtain ⟨a, b⟩ := q
    rw [mapSet] at h
    by_cases hak : a = k
    · rw [if_pos hak] at h
      rcases List.mem_cons.mp h with h | h
      · exact Or.inl h
      · exact Or.inr (List.mem_cons_of_mem _ h)
    · rw [if_neg hak] at h
      rcases List.mem_cons.mp h with h | h
      · exact Or.inr (h ▸ List.mem_cons_self _ _)
      · rcases ih h with h | h
        · exact Or.inl h
        · exact Or.inr (List.mem_cons_of_mem _ h)

theorem mapGet_eq_some_of_mem {α : Type} :
    ∀ {m : List (Str × α)}, (m.map Prod.fst).Nodup → ∀ {p : Str × α}, p ∈ m →
      mapGet m p.1 = some p.2 := by
  intro m
  induction m with
  | nil => intro _ p hp; exact absurd hp (List.not_mem_nil p)
  | cons q m ih =>
    intro hnd p hp
    obtain ⟨a, b⟩ := q
    simp only [List.map_cons, List.nodup_cons] at hnd
    rcases List.mem_cons.mp hp with rfl | hp'
    · rw [mapGet_cons, if_pos rfl]
    · rw [mapGet_cons]
      have : a ≠ p.1 := by
        intro h
        exact hnd.1 (h ▸ List.mem_map_of_mem Prod.fst hp')
      rw [if_neg this]
      exact ih hnd.2 hp'

theorem mem_of_mapGet_eq_some {α : Type} {m : List (Str × α)} {k : Str} {v : α}
    (h : mapGet m k = some v) : (k, v) ∈ m := by
  rw [mapGet] at h
  rcases hf : m.find? (fun p => p.1 = k) with _ | p
  · rw [hf] at h; exact absurd h (by simp)
  · rw [hf] at h
    have hp := List.find?_some hf
    have hm := List.mem_of_find?_eq_some hf
    simp only [decide_eq_true_eq] at hp
    have hv : p.2 = v := by simpa using h
    have : p = (k, v) := by
      obtain ⟨a, b⟩ := p
      simp only at hp hv
      rw [hp, hv]
    exact this ▸ hm

theorem getLast?_cons_or {α : Type} (a : α) (l : List α) :
    (a :: l).getLast? = l.getLast?.or (some a) := by
  induction l generalizing a with
  | nil => rfl
  | cons b l ih =>
    rw [List.getLast?_cons_cons, ih b]
    cases l.getLast? <;> rfl

theorem mapGet_foldl_mapSet (os : List ListingObject) :
    ∀ (m : List (Str × ListingObject)) (k : Str),
      mapGet (os.foldl (fun m o => mapSet m o.key o) m) k =
        ((os.filter (fun o => o.key = k)).getLast?).or (mapGet m k) := by
  induction os with
  | nil => intro m k; simp
  | cons o os ih =>
    intro m k
    rw [List.foldl_cons, ih]
    by_cases h : o.key = k
    · rw [List.filter_cons_of_pos (by simpa using h), getLast?_cons_or]
      rw [mapGet_mapSet, if_pos h]
      cases (os.filter (fun o => o.key = k)).getLast? <;> rfl
    · rw [List.filter_cons_of_neg (by simpa using h)]
      rw [mapGet_mapSet, if_neg h]

theorem filterMap_eq_foldr_entry (l : List Str) :
    l.filterMap entryOfBlock =
      l.foldr (fun b acc =>
        match entryOfBlock b with
        | some o => o :: acc
        | none => acc) [] := by
  induction l with
  | nil => rfl
  | cons b l ih =>
    simp only [List.filterMap_cons, List.foldr_cons, ← ih]
    cases entryOfBlock b <;> rfl

theorem foldl_mapSet_wf (os : List ListingObject) :
    ∀ m : List (Str × ListingObject), (∀ p ∈ m, p.2.key = p.1) →
      ∀ p ∈ os.foldl (fun m o => mapSet m o.key o) m, p.2.key = p.1 := by
  induction os with
  | nil => intro m hm; exact hm
  | cons o os ih =>
    intro m hm
    rw [List.foldl_cons]
    refine ih _ ?_
    intro p hp
    rcases mem_mapSet hp with rfl | hp'
    · rfl
    · exact hm p hp'

theorem foldl_mapSet_nodup (os : List ListingObject) :
    ∀ m : List (Str × ListingObject), (m.map Prod.fst).Nodup →
      (((os.foldl (fun m o => mapSet m o.key o) m).map Prod.fst)).Nodup := by
  induction os with
  | nil => intro m hm; exact hm
  | cons o os ih =>
    intro m hm
    rw [List.foldl_cons]
    exact ih _ (nodup_keys_mapSet _ _ hm)

/-- The dedup-map invariant of `fetchGo`: every entry's value carries the
entry's key, the keys are duplicate-free, and looking a key up returns the
last object with that key in the processing trace. -/
theorem fetchGo_map_inv (responses : ℕ → Option Str) (pfx : Str) :
    ∀ (r page : ℕ) (st : LoopState),
      (∀ p ∈ st.map, p.2.key = p.1) →
      ((st.map.map Prod.fst).Nodup) →
      (∀ k, mapGet st.map k = lastWithKey st.processed k) →
      ((∀ p ∈ (fetchGo responses pfx page r st).map, p.2.key = p.1)
        ∧ (((fetchGo responses pfx page r st).map.map Prod.fst).Nodup)
        ∧ (∀ k, mapGet (fetchGo responses pfx page r st).map k =
            lastWithKey (fetchGo responses pfx page r st).processed k)) := by
  intro r
  induction r with
  | zero =>
    intro page st h1 h2 h3
    exact ⟨h1, h2, h3⟩
  | succ r ih =>
    intro page st h1 h2 h3
    rw [fetchGo]
    by_cases htk : tokenKeyOf st.marker st.continuationToken ∈ st.seenTokens
    · rw [if_pos htk]
      exact ⟨h1, h2, h3⟩
    · rw [if_neg htk]
      split
      · exact ⟨h1, h2, h3⟩
      · next xml hxml =>
        dsimp only
        have hwf2 := foldl_mapSet_wf (parseListingXml xml).objects st.map h1
        have hnd2 := foldl_mapSet_nodup (parseListingXml xml).objects st.map h2
        have hlook2 : ∀ k,
            mapGet ((parseListingXml xml).objects.foldl (fun m o => mapSet m o.key o) st.map) k =
              lastWithKey (st.processed ++ (parseListingXml xml).objects) k := by
          intro k
          rw [mapGet_foldl_mapSet, h3 k]
          simp only [lastWithKey]
          rw [List.filter_append, List.getLast?_append]
        split
        · exact ⟨hwf2, hnd2, hlook2⟩
        · split
          · exact ih (page + 1) _ hwf2 hnd2 hlook2
          · split
            · exact ih (page + 1) _ hwf2 hnd2 hlook2
            · exact ⟨hwf2, hnd2, hlook2⟩

theorem mapGetD_addDayCount (m : List (Str × ℕ)) (day : Str) (c : ℕ) (d : Str) :
    mapGetD (addDayCount m day c) d =
      if day = d then mapGetD m d + c else mapGetD m d := by
  rw [addDayCount, mapGetD, mapGet_mapSet]
  by_cases h : day = d
  · rw [if_pos h, if_pos h, h]
    rfl
  · rw [if_neg h, if_neg h]
    rfl

theorem keys_addDayCount_mem (m : List (Str × ℕ)) (day : Str) (c : ℕ) (d : Str) :
    d ∈ (addDayCount m day c).map Prod.fst ↔ d ∈ m.map Prod.fst ∨ d = day := by
  rw [addDayCount, keys_mapSet]
  by_cases h : day ∈ m.map Prod.fst
  · rw [if_pos h]
    constructor
    · exact Or.inl
    · rintro (hd | rfl)
      · exact hd
      · exact h
  · rw [if_neg h, List.mem_append, List.mem_singleton]

theorem foldl_addDayCount_getD (pts : List VerifiedContractsDailyPoint) :
    ∀ (m : List (Str × ℕ)) (d : Str),
      mapGetD (pts.foldl (fun m e => addDayCount m e.day e.count) m) d =
        mapGetD m d + ((pts.filter (fun q => q.day = d)).map (fun q => q.count)).sum := by
  induction pts with
  | nil => intro m d; simp
  | cons q pts ih =>
    intro m d
    rw [List.foldl_cons, ih]
    by_cases h : q.day = d
    · rw [List.filter_cons_of_pos (by simpa using h), List.map_cons, List.sum_cons]
      rw [mapGetD_addDayCount, if_pos h]
      omega
    · rw [List.filter_cons_of_neg (by simpa using h)]
      rw [mapGetD_addDayCount, if_neg h]

theorem foldl_addDayCount_keys (pts : List VerifiedContractsDailyPoint) :
    ∀ (m : List (Str × ℕ)) (d : Str),
      (d ∈ (pts.foldl (fun m e => addDayCount m e.day e.count) m).map Prod.fst ↔
        d ∈ m.map Prod.fst ∨ d ∈ pts.map (fun q => q.day)) := by
  induction pts with
  | nil => intro m d; simp
  | cons q pts ih =>
    intro m d
    rw [List.foldl_cons, ih, keys_addDayCount_mem, List.map_cons, List.mem_cons]
    tauto

theorem foldl_addDayCount_nodup (pts : List VerifiedContractsDailyPoint) :
    ∀ m : List (Str × ℕ), (m.map Prod.fst).Nodup →
      ((pts.foldl (fun m e => addDayCount m e.day e.count) m).map Prod.fst).Nodup := by
  induction pts with
  | nil => intro m hm; exact hm
  | cons q pts ih =>
    intro m hm
    rw [List.foldl_cons]
    exact ih _ (nodup_keys_mapSet _ _ hm)

theorem foldlM_parseLine_eq (rows : List Str) :
    ∀ m0 : List (Str × ℕ),
      (rows.foldlM (fun m row => do
          let entry ← parseLine row
          pure (addDayCount m entry.day entry.count)) m0 : Except Str _)
        = (rows.mapM parseLine).map
            (fun pts => pts.foldl (fun m e => addDayCount m e.day e.count) m0) := by
  induction rows with
  | nil => intro m0; rfl
  | cons row rows ih =>
    intro m0
    rw [List.foldlM_cons, List.mapM_cons]
    rcases hrow : parseLine row with e | entry
    · rfl
    · show (rows.foldlM _ (addDayCount m0 entry.day entry.count)) = _
      rw [ih]
      rcases hmm : rows.mapM parseLine with e | pts <;> rfl

theorem parseLine_error_iff (row : Str) :
    (∃ e, parseLine row = .error e) ↔ rowBad row = true := by
  simp only [parseLine, rowBad]
  by_cases h1 : (splitOnChar ',' row).length > 2 ∨
      ¬ isDateShape (jsTrim ((splitOnChar ',' row).headD []))
  · rw [if_pos h1]
    simp only [decide_eq_true_eq]
    constructor
    · intro _; tauto
    · intro _; exact ⟨_, rfl⟩
  · rw [if_neg h1]
    by_cases h2 : ¬ (countNumOfField (splitOnChar ',' row)[1]?).isNonNegInt = true
    · rw [if_pos h2]
      simp only [decide_eq_true_eq]
      constructor
      · intro _; tauto
      · intro _; exact ⟨_, rfl⟩
    · rw [if_neg h2]
      simp only [decide_eq_true_eq]
      push_neg at h1 h2
      constructor
      · rintro ⟨e, he⟩
        exact absurd he (by simp)
      · intro hbad
        rcases hbad with hb | hb | hb
        · exact absurd hb (by omega)
        · exact absurd h1.2 (by simpa using hb)
        · exact absurd h2 (by simpa using hb)

theorem parseLine_error_names (row e : Str) (h : parseLine row = .error e) :
    namesLine e row := by
  simp only [parseLine] at h
  split at h
  · have he : msgInvalidRow row = e := by injection h
    exact ⟨("Invalid CSV row: \"".toList), ("\"".toList), by rw [← he]; rfl⟩
  · split at h
    · have he : msgInvalidCount row = e := by injection h
      exact ⟨("Invalid CSV count value: \"".toList), ("\"".toList), by rw [← he]; rfl⟩
    · exact absurd h (by simp)

theorem mapM_parseLine_error_iff (rows : List Str) :
    ((∃ e, rows.mapM parseLine = Except.error e) ↔ ∃ row ∈ rows, rowBad row = true)
    ∧ (∀ e, rows.mapM parseLine = Except.error e →
        ∃ row ∈ rows, rowBad row = true ∧ namesLine e row) := by
  induction rows with
  | nil =>
    constructor
    · constructor
      · rintro ⟨e, he⟩
        exact absurd (show Except.ok ([] : List VerifiedContractsDailyPoint) =
          Except.error e from he) (by simp)
      · rintro ⟨row, hr, _⟩
        exact absurd hr (List.not_mem_nil row)
    · intro e he
      exact absurd (show Except.ok ([] : List VerifiedContractsDailyPoint) =
        Except.error e from he) (by simp)
  | cons row rows ih =>
    rw [List.mapM_cons]
    rcases hrow : parseLine row with er | entry
    · constructor
      · constructor
        · intro _
          exact ⟨row, List.mem_cons_self _ _, (parseLine_error_iff row).mp ⟨er, hrow⟩⟩
        · intro _
          exact ⟨er, rfl⟩
      · intro e he
        have he' : Except.error er = Except.error e := he
        have hee : er = e := by injection he'
        subst hee
        exact ⟨row, List.mem_cons_self _ _, (parseLine_error_iff row).mp ⟨er, hrow⟩,
          parseLine_error_names row er hrow⟩
    · rcases hmm : rows.mapM parseLine with e2 | pts
      · constructor
        · constructor
          · intro _
            obtain ⟨r, hr, hb⟩ := ih.1.mp ⟨e2, hmm⟩
            exact ⟨r, List.mem_cons_of_mem _ hr, hb⟩
          · intro _
            exact ⟨e2, rfl⟩
        · intro e he
          have he' : Except.error e2 = Except.error e := he
          have hee : e2 = e := by injection he'
          subst hee
          obtain ⟨r, hr, hb, hn⟩ := ih.2 e2 hmm
          exact ⟨r, List.mem_cons_of_mem _ hr, hb, hn⟩
      · constructor
        · constructor
          · rintro ⟨e, he⟩
            exact absurd (show Except.ok (entry :: pts) = Except.error e from he) (by simp)
          · rintro ⟨r, hr, hb⟩
            rcases List.mem_cons.mp hr with rfl | hr'
            · obtain ⟨e, hee⟩ := (parseLine_error_iff r).mpr hb
              rw [hrow] at hee
              exact absurd hee (by simp)
            · obtain ⟨e, hee⟩ := ih.1.mpr ⟨r, hr', hb⟩
              rw [hmm] at hee
              exact absurd hee (by simp)
        · intro e he
          exact absurd (show Except.ok (entry :: pts) = Except.error e from he) (by simp)

theorem mapGet_map_pair {α : Type} (f : Str → α) :
    ∀ (l : List Str) (t : Str), t ∈ l →
      mapGet (l.map (fun x => (x, f x))) t = some (f t) := by
  intro l
  induction l with
  | nil => intro t ht; exact absurd ht (List.not_mem_nil t)
  | cons x l ih =>
    intro t ht
    rw [List.map_cons, mapGet_cons]
    by_cases hx : x = t
    · rw [if_pos hx, hx]
    · rw [if_neg hx]
      refine ih t ?_
      rcases List.mem_cons.mp ht with rfl | h
      · exact absurd rfl hx
      · exact h

theorem mapGet_accumulate_no_match (dp : Str → JsNum) (tm : List (Str × TableStats))
    (o : ListingObject) (t : Str) (hnm : getTableFromKey o.key ≠ some t) :
    mapGet (accumulateObject dp tm o) t = mapGet tm t := by
  rw [accumulateObject]
  rcases hg : getTableFromKey o.key with _ | table
  · rfl
  · rcases hmg : mapGet tm table with _ | stat
    · dsimp only
      rw [hmg]
    · dsimp only
      rw [hmg]
      dsimp only
      rw [mapGet_mapSet]
      rw [if_neg (fun h => hnm (by rw [hg, h]))]

theorem foldl_accumulate_no_match (dp : Str → JsNum) (t : Str)
    (objects : List ListingObject) :
    ∀ tm, (∀ o ∈ objects, getTableFromKey o.key ≠ some t) →
      mapGet (objects.foldl (fun tm o => accumulateObject dp tm o) tm) t = mapGet tm t := by
  induction objects with
  | nil => intro tm _; rfl
  | cons o objects ih =>
    intro tm hz
    rw [List.foldl_cons, ih _ (fun o ho => hz o (List.mem_cons_of_mem _ ho)),
      mapGet_accumulate_no_match dp tm o t (hz o (List.mem_cons_self _ _))]

theorem foldl_accumulate_wf (dp : Str → JsNum) (objects : List ListingObject) :
    ∀ tm, (∀ p ∈ tm, p.2.table = p.1) →
      ∀ p ∈ objects.foldl (fun tm o => accumulateObject dp tm o) tm, p.2.table = p.1 := by
  induction objects with
  | nil => intro tm h; exact h
  | cons o objects ih =>
    intro tm h
    rw [List.foldl_cons]
    refine ih _ ?_
    intro p hp
    rw [accumulateObject] at hp
    rcases hg : getTableFromKey o.key with _ | table
    · rw [hg] at hp
      exact h p hp
    · rw [hg] at hp
      dsimp only at hp
      rcases hmg : mapGet tm table with _ | stat
      · rw [hmg] at hp
        exact h p hp
      · rw [hmg] at hp
        rcases mem_mapSet hp with rfl | hp'
        · exact h (table, stat) (mem_of_mapGet_eq_some hmg)
        · exact h p hp'

theorem aggregateLoop_snd (dp : Str → JsNum) (objects : List ListingObject) :
    ∀ acc : AggregateTotals × List (Str × TableStats),
      (objects.foldl (fun acc o =>
        (⟨jsAdd acc.1.totalBytes o.size,
            some (pickLatest dp acc.1.latestGlobal o.lastModified)⟩,
          accumulateObject dp acc.2 o)) acc).2 =
        objects.foldl (fun tm o => accumulateObject dp tm o) acc.2 := by
  induction objects with
  | nil => intro acc; rfl
  | cons o objects ih =>
    intro acc
    rw [List.foldl_cons, List.foldl_cons, ih]

theorem find?_congr_mem {α : Type} {p q : α → Bool} :
    ∀ {l : List α}, (∀ a ∈ l, p a = q a) → l.find? p = l.find? q := by
  intro l
  induction l with
  | nil => intro _; rfl
  | cons a l ih =>
    intro h
    rw [List.find?_cons, List.find?_cons, h a (List.mem_cons_self _ _)]
    cases q a
    · exact ih (fun x hx => h x (List.mem_cons_of_mem _ hx))
    · rfl

theorem find?_eq_self_of_mem {t : Str} :
    ∀ {l : List Str}, t ∈ l → l.find? (fun x => x = t) = some t := by
  intro l
  induction l with
  | nil => intro ht; exact absurd ht (List.not_mem_nil t)
  | cons x l ih =>
    intro ht
    by_cases hx : x = t
    · rw [List.find?_cons_of_pos _ (by simpa using hx), hx]
    · rw [List.find?_cons_of_neg _ (by simpa using hx)]
      refine ih ?_
      rcases List.mem_cons.mp ht with rfl | h
      · exact absurd rfl hx
      · exact h

theorem tableMatches_iff {seg name : Str} :
    tableMatches seg name = true ↔ (seg = name ∨ (name ++ ['.']) <+: seg) := by
  simp [tableMatches, List.isPrefixOf_iff_prefix]

theorem noDotInTables : ∀ t ∈ TABLES, '.' ∉ t := by decide

theorem pre_dot_eq {a b : Str} (hnb : '.' ∉ b) (h : (a ++ ['.']) <+: (b ++ ['.'])) :
    a = b := by
  have hlen : (a ++ ['.']).length ≤ (b ++ ['.']).length := h.length_le
  simp only [List.length_append, List.length_singleton] at hlen
  rcases Nat.lt_or_ge a.length b.length with hlt | hge
  · exfalso
    have hpre : (a ++ ['.']) <+: b := by
      refine List.prefix_of_prefix_length_le h (List.prefix_append b ['.']) ?_
      simp only [List.length_append, List.length_singleton]
      omega
    exact hnb (hpre.subset (by simp))
  · have heq : a.length = b.length := by omega
    have : (a ++ ['.']).length = (b ++ ['.']).length := by
      simp only [List.length_append, List.length_singleton]; omega
    have := h.eq_of_length this
    exact List.append_cancel_right this

theorem tableMatches_unique {seg t1 t2 : Str} (h1 : t1 ∈ TABLES) (h2 : t2 ∈ TABLES)
    (m1 : tableMatches seg t1 = true) (m2 : tableMatches seg t2 = true) : t1 = t2 := by
  have hn1 := noDotInTables t1 h1
  have hn2 := noDotInTables t2 h2
  rcases tableMatches_iff.mp m1 with e1 | p1 <;> rcases tableMatches_iff.mp m2 with e2 | p2
  · exact e1.symm.trans e2
  · exfalso
    obtain ⟨s, hs⟩ := p2
    exact hn1 (by rw [e1] at hs; rw [← hs]; simp)
  · exfalso
    obtain ⟨s, hs⟩ := p1
    exact hn2 (by rw [e2] at hs; rw [← hs]; simp)
  · rcases List.prefix_or_prefix_of_prefix p1 p2 with h | h
    · exact pre_dot_eq hn2 h
    · exact (pre_dot_eq hn1 h).symm

theorem find?_eq_some_of_unique {α : Type} {p : α → Bool} {t : α} :
    ∀ {l : List α}, (∀ a ∈ l, ∀ b ∈ l, p a = true → p b = true → a = b) →
      (l.find? p = some t ↔ t ∈ l ∧ p t = true) := by
  intro l
  induction l with
  | nil => simp
  | cons x xs ih =>
    intro hu
    by_cases hx : p x = true
    · rw [List.find?_cons_of_pos _ hx]
      constructor
      · rintro h
        have : x = t := by injection h
        exact ⟨this ▸ List.mem_cons_self x xs, this ▸ hx⟩
      · rintro ⟨hm, hpt⟩
        have : x = t :=
          hu x (List.mem_cons_self x xs) t hm hx hpt
        rw [this]
    · rw [List.find?_cons_of_neg _ hx]
      have ih' := ih (fun a ha b hb => hu a (List.mem_cons_of_mem x ha) b (List.mem_cons_of_mem x hb))
      rw [ih']
      constructor
      · rintro ⟨hm, hpt⟩
        exact ⟨List.mem_cons_of_mem x hm, hpt⟩
      · rintro ⟨hm, hpt⟩
        rcases List.mem_cons.mp hm with rfl | hm'
        · exact absurd hpt hx
        · exact ⟨hm', hpt⟩

/-! ### Claim theorems -/

/-- C10 — the spec requires the XML text decoder to agree with a single-pass
decoder of the five escapes (so that `&amp;lt;` decodes to the literal text
`&lt;`), but `decodeXml` replaces `&amp;` first and rescans its output: on
the failing input `&amp;lt;` the code produces `<`, corrupting text that
was legitimately escaped by the server. -/
theorem claim_C10_decode_double_unescape :
    decodeXml ("&amp;lt;".toList) = ("<".toList) ∧
    decodeXmlSinglePass ("&amp;lt;".toList) = ("&lt;".toList) ∧
    decodeXml ("&amp;lt;".toList) ≠ decodeXmlSinglePass ("&amp;lt;".toList) := by
  refine ⟨by rfl, by rfl, by decide⟩

/-- C9 counterexample — with a current value that is the empty string (a
non-null string), `pickLatest` returns the candidate even though the
candidate's parsed instant is not strictly greater, so the claim's
"exactly when strictly greater, otherwise keeps the existing value" fails
at the concrete pair (current = `""`, candidate = `"x"`). -/
theorem claim_C9_counterexample :
    pickLatest (fun _ => JsNum.nan) (some []) ("x".toList) = ("x".toList) ∧
    jsGt ((fun _ => JsNum.nan) ("x".toList)) ((fun _ => JsNum.nan) ([] : Str)) = false ∧
    ("x".toList) ≠ ([] : Str) := by
  refine ⟨rfl, rfl, by decide⟩

/-- C9 (amended) — `pickLatest` is a total function (it never throws): it
returns the candidate when the current value is null or the empty string;
against any other current value the candidate wins exactly on a strictly
greater parsed instant, and otherwise — ties, or an unparsable side, since
a NaN comparison is always false — the existing value is kept. -/
theorem claim_C9_pick_latest_total (dp : Str → JsNum) (current : Option Str) (candidate : Str) :
    (pickLatest dp current candidate = candidate ∨
      ∃ c, current = some c ∧ pickLatest dp current candidate = c)
    ∧ (current = none ∨ current = some [] → pickLatest dp current candidate = candidate)
    ∧ (∀ c, current = some c → c ≠ [] →
        (jsGt (dp candidate) (dp c) = true → pickLatest dp current candidate = candidate)
        ∧ (jsGt (dp candidate) (dp c) = false → pickLatest dp current candidate = c))
    ∧ (∀ x : JsNum, jsGt x x = false)
    ∧ (∀ y : JsNum, jsGt JsNum.nan y = false ∧ jsGt y JsNum.nan = false) := by
  refine ⟨?_, ?_, ?_, ?_, ?_⟩
  · rcases current with _ | c
    · exact Or.inl rfl
    · by_cases hc : c = []
      · subst hc; exact Or.inl rfl
      · by_cases hgt : jsGt (dp candidate) (dp c) = true
        · exact Or.inl (by simp [pickLatest, hc, hgt])
        · refine Or.inr ⟨c, rfl, ?_⟩
          simp [pickLatest, hc, hgt]
  · rintro (rfl | rfl)
    · rfl
    · rfl
  · rintro c rfl hc
    constructor
    · intro hgt; simp [pickLatest, hc, hgt]
    · intro hgt; simp [pickLatest, hc, hgt]
  · rintro (_ | s | q) <;> simp [jsGt]
  · rintro (_ | s | q) <;> simp [jsGt]

/-- C2 counterexample — a block whose `Size` sub-field is absent (so its
size certainly does not parse as a finite number) is still included, with
size 0, because `Number(null)` is `0`: the claim's "exactly when key, size
and lastModified are all present and the size parses finite" fails on this
page. -/
theorem claim_C2_counterexample :
    (parseListingXml xmlMissingSize).objects =
      [⟨("k".toList), .fin 0, ("t".toList)⟩] ∧
    getTagValue xmlMissingSize ("Size".toList) = none := by
  refine ⟨by rfl, by rfl⟩

/-- C2 (amended) — the parser never aborts a page on a bad entry: the
parsed objects are exactly the per-block survivors, in order, and a block
survives precisely when its key and lastModified sub-fields are present
with non-empty decoded text and its size value — the numeric parse of the
size sub-field, an absent one reading as 0 — is not NaN (non-finite sizes
are not rejected). -/
theorem claim_C2_parser_skips_entries (xml : Str) (block : Str) (o : ListingObject) :
    (parseListingXml xml).objects =
      (contentsBlocks xml).foldr
        (fun b acc =>
          match entryOfBlock b with
          | some o2 => o2 :: acc
          | none => acc) []
    ∧ (entryOfBlock block = some o ↔
        (getTagValue block ("Key".toList) = some o.key ∧ o.key ≠ [] ∧
          getTagValue block ("LastModified".toList) = some o.lastModified ∧
          o.lastModified ≠ [] ∧ o.size = blockSize block ∧
          (blockSize block).isNaN = false)) := by
  constructor
  · exact filterMap_eq_foldr_entry (contentsBlocks xml)
  · unfold entryOfBlock
    rcases hk : getTagValue block ("Key".toList) with _ | k <;>
      rcases hl : getTagValue block ("LastModified".toList) with _ | l <;>
        simp only [hk, hl]
    · constructor
      · rintro ⟨⟩
      · rintro ⟨h, _⟩; exact absurd h (by simp)
    · constructor
      · rintro ⟨⟩
      · rintro ⟨h, _⟩; exact absurd h (by simp)
    · constructor
      · rintro ⟨⟩
      · rintro ⟨_, _, h, _⟩; exact absurd h (by simp)
    · by_cases hcond : k = [] ∨ l = [] ∨ (blockSize block).isNaN = true
      · rw [if_pos hcond]
        constructor
        · rintro ⟨⟩
        · rintro ⟨hko, hk2, hlo, hl2, _, hnan⟩
          have hkk : k = o.key := by injection hko
          have hll : l = o.lastModified := by injection hlo
          rcases hcond with h | h | h
          · exact (hk2 (hkk ▸ h)).elim
          · exact (hl2 (hll ▸ h)).elim
          · rw [hnan] at h; exact (Bool.false_ne_true h).elim
      · rw [if_neg hcond]
        push_neg at hcond
        obtain ⟨hk2, hl2, hnan⟩ := hcond
        constructor
        · rintro h
          injection h with h
          subst h
          exact ⟨rfl, hk2, rfl, hl2, rfl, by simpa using hnan⟩
        · rintro ⟨hko, _, hlo, _, hsz, _⟩
          have h1 : k = o.key := by injection hko
          have h2 : l = o.lastModified := by injection hlo
          cases o
          simp_all

/-- Folding `+ count` from an accumulator is the accumulator plus the sum. -/
theorem foldl_add_count (l : List VerifiedContractsDailyPoint) :
    ∀ a : ℕ, l.foldl (fun sum e => sum + e.count) a = a + (l.map (fun e => e.count)).sum := by
  induction l with
  | nil => intro a; simp
  | cons e l ih =>
    intro a
    simp only [List.foldl_cons, List.map_cons, List.sum_cons, ih]
    omega

/-- The rational version of `foldl_add_count`. -/
theorem foldl_add_count_cast (l : List VerifiedContractsDailyPoint) :
    ∀ a : ℚ, l.foldl (fun sum e => sum + (e.count : ℚ)) a =
      a + (((l.map (fun e => e.count)).sum : ℕ) : ℚ) := by
  induction l with
  | nil => intro a; simp
  | cons e l ih =>
    intro a
    simp only [List.foldl_cons, List.map_cons, List.sum_cons, ih]
    push_cast
    ring

/-- The last `min n length` entries are what `slice(-n)` keeps. -/
theorem lastEntries_eq_drop {α : Type} (l : List α) (n : ℕ) :
    lastEntries l n = l.drop (l.length - n) := by
  rw [lastEntries, List.take_reverse, List.reverse_reverse]

/-- `getRecentAverage` on a non-empty series with a positive window is the
two-decimal rounding of the mean of the last `min w length` entries. -/
theorem getRecentAverage_eq (series : List VerifiedContractsDailyPoint) (w : ℕ)
    (hw : w ≠ 0) (hs : series ≠ []) :
    getRecentAverage series w =
      round2 (((((lastEntries series w).map (fun e => e.count)).sum : ℕ) : ℚ) /
        ((min w series.length : ℕ) : ℚ)) := by
  have hlen : (series.drop (series.length - w)).length = min w series.length := by
    rw [List.length_drop]
    omega
  have hpos : 0 < series.length := List.length_pos.mpr hs
  have hne : ¬ ((series.drop (series.length - w)).isEmpty = true) := by
    rw [List.isEmpty_iff]
    intro h
    rw [h] at hlen
    simp at hlen
    omega
  simp only [getRecentAverage]
  rw [if_neg hw, if_neg hne]
  rw [foldl_add_count_cast _ 0, zero_add, lastEntries_eq_drop, hlen]

/-- C7 — `getTableFromKey` returns a category exactly when the key starts
with the dataset prefix and the first path segment after it equals the
category name or extends it past a dot; the spec's two examples evaluate as
stated. -/
theorem claim_C7_classifier (key t : Str) :
    (getTableFromKey key = some t ↔
      (t ∈ TABLES ∧ DATASET_PREFIX.isPrefixOf key = true ∧
        (topLevelSegment key = t ∨ (t ++ ['.']).isPrefixOf (topLevelSegment key) = true)))
    ∧ getTableFromKey ("v2/sources/part-0.parquet".toList) = some ("sources".toList)
    ∧ getTableFromKey ("v2/sources_old/x".toList) = none := by
  refine ⟨?_, by decide, by decide⟩
  by_cases hp : DATASET_PREFIX.isPrefixOf key = true
  · rw [getTableFromKey, if_neg (by simp [hp])]
    rw [find?_eq_some_of_unique
      (fun a ha b hb pa pb => tableMatches_unique ha hb pa pb)]
    constructor
    · rintro ⟨hm, hmt⟩
      rcases tableMatches_iff.mp hmt with h | h
      · exact ⟨hm, hp, Or.inl h⟩
      · exact ⟨hm, hp, Or.inr (List.isPrefixOf_iff_prefix.mpr h)⟩
    · rintro ⟨hm, _, h | h⟩
      · exact ⟨hm, tableMatches_iff.mpr (Or.inl h)⟩
      · exact ⟨hm, tableMatches_iff.mpr (Or.inr (List.isPrefixOf_iff_prefix.mp h))⟩
  · simp [getTableFromKey, hp]

/-- A truthy `string | null` value is not the empty string. -/
theorem optTruthy_ne_some_nil {o : Option Str} (h : optTruthy o = true) : o ≠ some [] := by
  rintro rfl
  simp [optTruthy] at h

/-- Building a request does not change the composite cycle-guard key, for
the cursor states the loop can reach (never an empty-string cursor, never
both cursors at once). -/
theorem buildRequest_tokenKey (pfx : Str) (marker token : Option Str)
    (hm : marker ≠ some []) (ht : token ≠ some [])
    (hmt : marker = none ∨ token = none) :
    tokenKeyOf (buildRequest pfx marker token).marker
      (buildRequest pfx marker token).continuationToken = tokenKeyOf marker token := by
  rcases token with _ | t
  · rcases marker with _ | m
    · rfl
    · have hm' : m ≠ [] := by rintro rfl; exact hm rfl
      have : m.isEmpty = false := by
        cases m
        · exact absurd rfl hm'
        · rfl
      simp [buildRequest, optTruthy, this, tokenKeyOf]
  · have ht' : t ≠ [] := by rintro rfl; exact ht rfl
    have hmn : marker = none := by
      rcases hmt with h | h
      · exact h
      · exact absurd h (by simp)
    subst hmn
    have : t.isEmpty = false := by
      cases t
      · exact absurd rfl ht'
      · rfl
    simp [buildRequest, optTruthy, this, tokenKeyOf]

/-- The loop invariant of `fetchGo`: the seen-composite list stays
duplicate-free, equals the issued requests' composite keys in order, and
grows by at most the remaining iteration count. -/
theorem fetchGo_inv (responses : ℕ → Option Str) (pfx : Str) :
    ∀ (r page : ℕ) (st : LoopState),
      st.seenTokens.Nodup →
      st.seenTokens = st.pageUrls.map (fun q => tokenKeyOf q.marker q.continuationToken) →
      st.marker ≠ some [] → st.continuationToken ≠ some [] →
      (st.marker = none ∨ st.continuationToken = none) →
      ((fetchGo responses pfx page r st).seenTokens.Nodup
        ∧ (fetchGo responses pfx page r st).seenTokens =
            (fetchGo responses pfx page r st).pageUrls.map
              (fun q => tokenKeyOf q.marker q.continuationToken)
        ∧ (fetchGo responses pfx page r st).pageUrls.length ≤ st.pageUrls.length + r) := by
  intro r
  induction r with
  | zero =>
    intro page st h1 h2 _ _ _
    exact ⟨h1, h2, by simp [fetchGo]⟩
  | succ r ih =>
    intro page st h1 h2 hm ht hmt
    rw [fetchGo]
    by_cases htk : tokenKeyOf st.marker st.continuationToken ∈ st.seenTokens
    · rw [if_pos htk]
      exact ⟨h1, h2, by omega⟩
    · rw [if_neg htk]
      have hreq := buildRequest_tokenKey pfx st.marker st.continuationToken hm ht hmt
      have h1' : (st.seenTokens ++ [tokenKeyOf st.marker st.continuationToken]).Nodup := by
        rw [List.nodup_append]
        exact ⟨h1, List.nodup_singleton _, by simpa using htk⟩
      have h2' : st.seenTokens ++ [tokenKeyOf st.marker st.continuationToken] =
          (st.pageUrls ++ [buildRequest pfx st.marker st.continuationToken]).map
            (fun q => tokenKeyOf q.marker q.continuationToken) := by
        rw [List.map_append, ← h2]
        simp [hreq]
      have ihx : ∀ st' : LoopState,
          st'.seenTokens = st.seenTokens ++ [tokenKeyOf st.marker st.continuationToken] →
          st'.pageUrls = st.pageUrls ++ [buildRequest pfx st.marker st.continuationToken] →
          st'.marker ≠ some [] → st'.continuationToken ≠ some [] →
          (st'.marker = none ∨ st'.continuationToken = none) →
          ((fetchGo responses pfx (page + 1) r st').seenTokens.Nodup
            ∧ (fetchGo responses pfx (page + 1) r st').seenTokens =
                (fetchGo responses pfx (page + 1) r st').pageUrls.map
                  (fun q => tokenKeyOf q.marker q.continuationToken)
            ∧ (fetchGo responses pfx (page + 1) r st').pageUrls.length ≤
                st.pageUrls.length + (r + 1)) := by
        intro st' hs hp hm' ht' hmt'
        have hres := ih (page + 1) st' (hs ▸ h1') (by rw [hs, hp]; exact h2') hm' ht' hmt'
        refine ⟨hres.1, hres.2.1, ?_⟩
        have h3 := hres.2.2
        rw [hp] at h3
        simp only [List.length_append, List.length_singleton] at h3
        omega
      have htriv : ∀ st' : LoopState,
          st'.seenTokens = st.seenTokens ++ [tokenKeyOf st.marker st.continuationToken] →
          st'.pageUrls = st.pageUrls ++ [buildRequest pfx st.marker st.continuationToken] →
          (st'.seenTokens.Nodup
            ∧ st'.seenTokens = st'.pageUrls.map (fun q => tokenKeyOf q.marker q.continuationToken)
            ∧ st'.pageUrls.length ≤ st.pageUrls.length + (r + 1)) := by
        intro st' hs hp
        refine ⟨hs ▸ h1', by rw [hs, hp]; exact h2', ?_⟩
        rw [hp]
        simp only [List.length_append, List.length_singleton]
        omega
      split
      · exact htriv _ rfl rfl
      · next xml hxml =>
        dsimp only
        split
        · exact htriv _ rfl rfl
        · split
          · next htok =>
            exact ihx _ rfl rfl (by simp) (optTruthy_ne_some_nil htok) (Or.inl rfl)
          · split
            · next hmk =>
              exact ihx _ rfl rfl (optTruthy_ne_some_nil hmk) (by simp) (Or.inr rfl)
            · exact htriv _ rfl rfl

/-- C1 — for every response sequence (including misbehaving servers), the
fetch loop issues at most `MAX_LISTING_PAGES` (250) requests, and the
composite cursor keys of the issued requests are pairwise distinct: the
loop stops before issuing a request whose composite key was already seen. -/
theorem claim_C1_pagination_bounded (responses : ℕ → Option Str) (pfx : Str) :
    (fetchFinalState responses pfx).pageUrls.length ≤ MAX_LISTING_PAGES
    ∧ (fetchFinalState responses pfx).seenTokens.Nodup
    ∧ (fetchFinalState responses pfx).seenTokens =
        (fetchFinalState responses pfx).pageUrls.map
          (fun q => tokenKeyOf q.marker q.continuationToken)
    ∧ ((fetchFinalState responses pfx).pageUrls.map
          (fun q => tokenKeyOf q.marker q.continuationToken)).Nodup := by
  have h := fetchGo_inv responses pfx MAX_LISTING_PAGES 0 initialLoopState
    (by simp [initialLoopState]) (by simp [initialLoopState])
    (by simp [initialLoopState]) (by simp [initialLoopState])
    (Or.inl (by simp [initialLoopState]))
  refine ⟨?_, h.1, h.2.1, h.2.1 ▸ h.1⟩
  have := h.2.2
  simpa [fetchFinalState, initialLoopState] using this

/-- C6 — the summary's total is the sum of all counts; latestDay and
latestCount are the day and count of the last element (null on an empty
series); each trailing average is the mean of the counts of the last
`min N length` entries rounded to two decimals, and 0 on an empty series;
no series length errors. -/
theorem claim_C6_summary_totals (series : List VerifiedContractsDailyPoint) :
    (summarizeSeries series).total = (series.map (fun e => e.count)).sum
    ∧ (series = [] →
        (summarizeSeries series).latestDay = none ∧
        (summarizeSeries series).latestCount = none ∧
        (summarizeSeries series).average7d = 0 ∧
        (summarizeSeries series).average30d = 0)
    ∧ (∀ l p, series = l ++ [p] →
        (summarizeSeries series).latestDay = some p.day ∧
        (summarizeSeries series).latestCount = some p.count)
    ∧ (series ≠ [] →
        (summarizeSeries series).average7d =
          round2 (((((lastEntries series 7).map (fun e => e.count)).sum : ℕ) : ℚ) /
            ((min 7 series.length : ℕ) : ℚ)) ∧
        (summarizeSeries series).average30d =
          round2 (((((lastEntries series 30).map (fun e => e.count)).sum : ℕ) : ℚ) /
            ((min 30 series.length : ℕ) : ℚ))) := by
  refine ⟨?_, ?_, ?_, ?_⟩
  · simp only [summarizeSeries]
    rw [foldl_add_count _ 0, Nat.zero_add]
  · rintro rfl
    refine ⟨rfl, rfl, rfl, rfl⟩
  · rintro l p rfl
    simp [summarizeSeries, List.getLast?_concat]
  · intro hs
    exact ⟨getRecentAverage_eq series 7 (by omega) hs,
      getRecentAverage_eq series 30 (by omega) hs⟩

/-- C3 — for every response sequence, a successful fetch returns an object
list with pairwise-distinct keys, sorted strictly ascending by key, in
which each key's record is the last object with that key in the processing
trace (a later page's record supersedes an earlier one). -/
theorem claim_C3_dedupe_last_wins_sorted (responses : ℕ → Option Str) (pfx : Str)
    (objs : List ListingObject) (reqs : List ListingRequest)
    (h : fetchAllObjects responses pfx = .ok (objs, reqs)) :
    (objs.map (fun o => o.key)).Nodup
    ∧ List.Pairwise (fun a b : ListingObject => a.key < b.key) objs
    ∧ (∀ o, o ∈ objs ↔
        lastWithKey (fetchFinalState responses pfx).processed o.key = some o) := by
  have hinv := fetchGo_map_inv responses pfx MAX_LISTING_PAGES 0 initialLoopState
    (by intro p hp; exact absurd hp (List.not_mem_nil p))
    (by simp [initialLoopState])
    (by intro k; rfl)
  simp only [fetchAllObjects] at h
  by_cases hf : (fetchFinalState responses pfx).failed = true
  · rw [if_pos hf] at h
    exact absurd h (by simp)
  · rw [if_neg hf] at h
    rw [Except.ok.injEq, Prod.mk.injEq] at h
    obtain ⟨hobjs, _⟩ := h
    have hperm :
        objs.Perm ((fetchFinalState responses pfx).map.map (fun p => p.2)) := by
      rw [← hobjs]
      exact List.perm_insertionSort _ _
    have hwf : ∀ p ∈ (fetchFinalState responses pfx).map, p.2.key = p.1 := hinv.1
    have hnd : ((fetchFinalState responses pfx).map.map Prod.fst).Nodup := hinv.2.1
    have hlook : ∀ k, mapGet (fetchFinalState responses pfx).map k =
        lastWithKey (fetchFinalState responses pfx).processed k := hinv.2.2
    have hkeyseq :
        ((fetchFinalState responses pfx).map.map (fun p => p.2)).map (fun o => o.key) =
          (fetchFinalState responses pfx).map.map Prod.fst := by
      rw [List.map_map]
      exact List.map_congr_left (fun p hp => hwf p hp)
    have hkeysnd : (objs.map (fun o => o.key)).Nodup := by
      refine ((hperm.map (fun o => o.key)).nodup_iff).mpr ?_
      rw [hkeyseq]
      exact hnd
    have hmem : ∀ o : ListingObject,
        o ∈ objs ↔ mapGet (fetchFinalState responses pfx).map o.key = some o := by
      intro o
      rw [hperm.mem_iff]
      constructor
      · intro ho
        obtain ⟨p, hp, hpo⟩ := List.mem_map.mp ho
        have h1 := mapGet_eq_some_of_mem hnd hp
        rw [← hwf p hp, hpo] at h1
        exact h1
      · intro ho
        exact List.mem_map.mpr ⟨(o.key, o), mem_of_mapGet_eq_some ho, rfl⟩
    refine ⟨hkeysnd, ?_, ?_⟩
    · have hsorted : List.Pairwise (fun a b : ListingObject => a.key ≤ b.key) objs := by
        rw [← hobjs]
        exact List.sorted_insertionSort (fun a b : ListingObject => a.key ≤ b.key) _
      have hne : List.Pairwise (fun a b : ListingObject => a.key ≠ b.key) objs :=
        List.pairwise_map.mp hkeysnd
      exact (hsorted.and hne).imp (fun hab => lt_of_le_of_ne hab.1 hab.2)
    · intro o
      rw [hmem o, hlook o.key]

set_option maxRecDepth 16384 in
/-- Claim C3's theorem applied at a concrete two-object page: the witness
run succeeds and satisfies all three conclusions. -/
theorem claim_C3_dedupe_witness :
    (objsWitness.map (fun o => o.key)).Nodup
    ∧ List.Pairwise (fun a b : ListingObject => a.key < b.key) objsWitness
    ∧ (∀ o, o ∈ objsWitness ↔
        lastWithKey (fetchFinalState respWitness DATASET_PREFIX).processed o.key = some o) :=
  claim_C3_dedupe_last_wins_sorted respWitness DATASET_PREFIX objsWitness reqsWitness (by rfl)

/-- C4 — on every successfully parsed CSV, the series has pairwise-distinct
days, is sorted strictly ascending by day, each point's count is the sum of
the counts of all raw rows with that day, and the series' days are exactly
the raw rows' days. -/
theorem claim_C4_csv_merge_sum (csv : Str) (s : List VerifiedContractsDailyPoint)
    (h : parseCsv csv = .ok s) :
    (s.map (fun p => p.day)).Nodup
    ∧ List.Pairwise (fun a b : VerifiedContractsDailyPoint => a.day < b.day) s
    ∧ ∃ pts : List VerifiedContractsDailyPoint,
        ((csvLines csv).tail).mapM parseLine = Except.ok pts
        ∧ (∀ p ∈ s, p.count =
            ((pts.filter (fun q => q.day = p.day)).map (fun q => q.count)).sum)
        ∧ (∀ d : Str, (∃ p ∈ s, p.day = d) ↔ (∃ q ∈ pts, q.day = d)) := by
  rw [parseCsv] at h
  rcases hlines : csvLines csv with _ | ⟨header, rows⟩
  · rw [hlines] at h
    dsimp only at h
    have hs : s = [] := by
      have := Except.ok.inj h
      exact this.symm
    subst hs
    refine ⟨by simp, by simp, [], by rfl, by simp, by simp⟩
  · rw [hlines] at h
    dsimp only at h
    by_cases hh : asciiLower header ≠ ("day,count".toList)
    · rw [if_pos hh] at h
      exact absurd h (by simp)
    · rw [if_neg hh] at h
      have hbind :
          (rows.foldlM (fun m row => do
              let entry ← parseLine row
              pure (addDayCount m entry.day entry.count)) ([] : List (Str × ℕ))) >>=
            (fun m => pure (List.insertionSort (fun a b => a.day ≤ b.day)
              (m.map (fun p => (⟨p.1, p.2⟩ : VerifiedContractsDailyPoint))))) = .ok s := h
      rw [foldlM_parseLine_eq] at hbind
      rcases hpts : rows.mapM parseLine with e | pts
      · rw [hpts] at hbind
        exact absurd hbind (by simp [Except.map])
      · rw [hpts] at hbind
        have hs : s = List.insertionSort (fun a b => a.day ≤ b.day)
            ((pts.foldl (fun m e => addDayCount m e.day e.count) []).map
              (fun p => (⟨p.1, p.2⟩ : VerifiedContractsDailyPoint))) := by
          have : Except.ok (ε := Str) (List.insertionSort (fun a b => a.day ≤ b.day)
              ((pts.foldl (fun m e => addDayCount m e.day e.count) []).map
                (fun p => (⟨p.1, p.2⟩ : VerifiedContractsDailyPoint)))) = .ok s := hbind
          exact (Except.ok.inj this).symm
      -- basic data about the fold result
        have hnd : (((pts.foldl (fun m e => addDayCount m e.day e.count)
            ([] : List (Str × ℕ))).map Prod.fst)).Nodup :=
          foldl_addDayCount_nodup pts [] (by simp)
        have hperm : s.Perm ((pts.foldl (fun m e => addDayCount m e.day e.count) []).map
            (fun p => (⟨p.1, p.2⟩ : VerifiedContractsDailyPoint))) := by
          rw [hs]
          exact List.perm_insertionSort _ _
        have hdayseq : ((pts.foldl (fun m e => addDayCount m e.day e.count) []).map
              (fun p => (⟨p.1, p.2⟩ : VerifiedContractsDailyPoint))).map (fun p => p.day) =
            (pts.foldl (fun m e => addDayCount m e.day e.count) []).map Prod.fst := by
          rw [List.map_map]
          rfl
        have hdaysnd : (s.map (fun p => p.day)).Nodup := by
          refine ((hperm.map (fun p => p.day)).nodup_iff).mpr ?_
          rw [hdayseq]
          exact hnd
        refine ⟨hdaysnd, ?_, pts, ?_, ?_, ?_⟩
        · have hsorted :
              List.Pairwise (fun a b : VerifiedContractsDailyPoint => a.day ≤ b.day) s := by
            rw [hs]
            exact List.sorted_insertionSort
              (fun a b : VerifiedContractsDailyPoint => a.day ≤ b.day) _
          have hne : List.Pairwise
              (fun a b : VerifiedContractsDailyPoint => a.day ≠ b.day) s :=
            List.pairwise_map.mp hdaysnd
          exact (hsorted.and hne).imp (fun hab => lt_of_le_of_ne hab.1 hab.2)
        · exact hpts
        · intro p hp
          have hp' := hperm.mem_iff.mp hp
          obtain ⟨q, hq, hqp⟩ := List.mem_map.mp hp'
          have hget := mapGet_eq_some_of_mem hnd hq
          have hday : p.day = q.1 := by rw [← hqp]
          have hcount : p.count = q.2 := by rw [← hqp]
          have := foldl_addDayCount_getD pts [] p.day
          rw [mapGetD] at this
          rw [hday] at this ⊢
          rw [hget] at this
          simp only [Option.getD_some, mapGetD, mapGet_nil, Option.getD_none,
            Nat.zero_add] at this
          rw [hcount, ← this]
        · intro d
          constructor
          · rintro ⟨p, hp, rfl⟩
            have hp' := hperm.mem_iff.mp hp
            obtain ⟨q, hq, hqp⟩ := List.mem_map.mp hp'
            have : p.day ∈ (pts.foldl (fun m e => addDayCount m e.day e.count)
                ([] : List (Str × ℕ))).map Prod.fst := by
              rw [← hqp]
              exact List.mem_map_of_mem Prod.fst hq
            have hmem := (foldl_addDayCount_keys pts [] p.day).mp this
            simp only [List.map_nil, List.not_mem_nil, false_or] at hmem
            obtain ⟨q', hq', hq'd⟩ := List.mem_map.mp hmem
            exact ⟨q', hq', hq'd⟩
          · rintro ⟨q, hq, rfl⟩
            have : q.day ∈ (pts.foldl (fun m e => addDayCount m e.day e.count)
                ([] : List (Str × ℕ))).map Prod.fst := by
              refine (foldl_addDayCount_keys pts [] q.day).mpr ?_
              exact Or.inr (List.mem_map_of_mem (fun q => q.day) hq)
            obtain ⟨e, he, hed⟩ := List.mem_map.mp this
            refine ⟨⟨e.1, e.2⟩, ?_, hed⟩
            rw [hperm.mem_iff]
            exact List.mem_map_of_mem _ he

/-- Claim C4's theorem applied at the spec's example CSV, whose two rows
for 2024-01-01 (counts 3 and 5) merge to the single point with count 8. -/
theorem claim_C4_csv_merge_witness :
    parseCsv exCsv = .ok [⟨"2024-01-01".toList, 8⟩]
    ∧ (([⟨"2024-01-01".toList, 8⟩] :
          List VerifiedContractsDailyPoint).map (fun p => p.day)).Nodup
    ∧ List.Pairwise (fun a b : VerifiedContractsDailyPoint => a.day < b.day)
        [⟨"2024-01-01".toList, 8⟩]
    ∧ ∃ pts : List VerifiedContractsDailyPoint,
        ((csvLines exCsv).tail).mapM parseLine = Except.ok pts
        ∧ (∀ p ∈ ([⟨"2024-01-01".toList, 8⟩] : List VerifiedContractsDailyPoint),
            p.count = ((pts.filter (fun q => q.day = p.day)).map (fun q => q.count)).sum)
        ∧ (∀ d : Str,
            (∃ p ∈ ([⟨"2024-01-01".toList, 8⟩] : List VerifiedContractsDailyPoint),
              p.day = d) ↔ (∃ q ∈ pts, q.day = d)) := by
  refine ⟨by rfl, ?_⟩
  have := claim_C4_csv_merge_sum exCsv [⟨"2024-01-01".toList, 8⟩] (by rfl)
  exact ⟨this.1, this.2.1, this.2.2⟩

/-- C5 — CSV parsing fails exactly when there is at least one non-blank
line and either the first line differs case-insensitively from
`day,count`, or some subsequent line has more than two comma-separated
fields, a first field without the 4-2-2 date shape, or a second field that
does not read as a non-negative integer; the error message contains the
offending line verbatim; input with no non-blank lines parses to the empty
series. -/
theorem claim_C5_csv_error_characterization (csv : Str) :
    (csvLines csv = [] → parseCsv csv = .ok [])
    ∧ ((∃ e, parseCsv csv = .error e) ↔
        (csvLines csv ≠ [] ∧
          (asciiLower ((csvLines csv).headD []) ≠ ("day,count".toList)
            ∨ ∃ row ∈ (csvLines csv).tail, rowBad row = true)))
    ∧ (∀ e, parseCsv csv = .error e →
        (asciiLower ((csvLines csv).headD []) ≠ ("day,count".toList) ∧
          namesLine e ((csvLines csv).headD []))
        ∨ (∃ row ∈ (csvLines csv).tail, rowBad row = true ∧ namesLine e row)) := by
  rcases hlines : csvLines csv with _ | ⟨header, rows⟩
  · have hok : parseCsv csv = .ok [] := by
      rw [parseCsv, hlines]
    refine ⟨fun _ => hok, ?_, ?_⟩
    · constructor
      · rintro ⟨e, he⟩
        rw [hok] at he
        exact absurd he (by simp)
      · rintro ⟨hne, _⟩
        exact absurd rfl hne
    · intro e he
      rw [hok] at he
      exact absurd he (by simp)
  · by_cases hh : asciiLower header ≠ ("day,count".toList)
    · have herr : parseCsv csv = .error (msgBadHeader header) := by
        rw [parseCsv, hlines]
        dsimp only
        rw [if_pos hh]
      refine ⟨fun hcon => absurd hcon (by simp), ?_, ?_⟩
      · constructor
        · intro _
          exact ⟨List.cons_ne_nil _ _, Or.inl hh⟩
        · intro _
          exact ⟨msgBadHeader header, herr⟩
      · intro e he
        rw [herr] at he
        have hee : msgBadHeader header = e := by injection he
        refine Or.inl ⟨hh, ?_⟩
        exact ⟨("Unexpected CSV header. Expected \"day,count\" but got \"".toList),
          ("\".".toList), by rw [← hee]; rfl⟩
    · rcases hpts : rows.mapM parseLine with e2 | pts
      · have herr : parseCsv csv = .error e2 := by
          rw [parseCsv, hlines]
          dsimp only
          rw [if_neg hh, foldlM_parseLine_eq, hpts]
          rfl
        refine ⟨fun hcon => absurd hcon (by simp), ?_, ?_⟩
        · constructor
          · intro _
            obtain ⟨r, hr, hb⟩ := (mapM_parseLine_error_iff rows).1.mp ⟨e2, hpts⟩
            exact ⟨List.cons_ne_nil _ _, Or.inr ⟨r, hr, hb⟩⟩
          · intro _
            exact ⟨e2, herr⟩
        · intro e he
          rw [herr] at he
          have hee : e2 = e := by injection he
          subst hee
          obtain ⟨r, hr, hb, hn⟩ := (mapM_parseLine_error_iff rows).2 e2 hpts
          exact Or.inr ⟨r, hr, hb, hn⟩
      · have hok : parseCsv csv = .ok (List.insertionSort (fun a b => a.day ≤ b.day)
            ((pts.foldl (fun m e => addDayCount m e.day e.count) []).map
              (fun p => (⟨p.1, p.2⟩ : VerifiedContractsDailyPoint)))) := by
          rw [parseCsv, hlines]
          dsimp only
          rw [if_neg hh, foldlM_parseLine_eq, hpts]
          rfl
        refine ⟨fun hcon => absurd hcon (by simp), ?_, ?_⟩
        · constructor
          · rintro ⟨e, he⟩
            rw [hok] at he
            exact absurd he (by simp)
          · rintro ⟨_, hbad | ⟨r, hr, hb⟩⟩
            · exact absurd hbad hh
            · obtain ⟨e, hee⟩ := (mapM_parseLine_error_iff rows).1.mpr ⟨r, hr, hb⟩
              rw [hpts] at hee
              exact absurd hee (by simp)
        · intro e he
          rw [hok] at he
          exact absurd he (by simp)

/-- C8 — for every object set (all categories present, some, or none), the
aggregator's per-table output has exactly one row per declared table, in
declared order; and any table with no matching object keeps the all-zero
statistics record with its derived endpoint URL. -/
theorem claim_C8_fixed_table_rows (dp : Str → JsNum) (objects : List ListingObject) :
    ((aggregateTables dp objects).map (fun s => s.table) = TABLES)
    ∧ (∀ t, t ∈ TABLES → (∀ o ∈ objects, getTableFromKey o.key ≠ some t) →
        (aggregateTables dp objects).find? (fun s => s.table = t) =
          some (emptyTableStat t)) := by
  have hwfinit : ∀ p ∈ initialTableMap, p.2.table = p.1 := by
    intro p hp
    obtain ⟨x, _, rfl⟩ := List.mem_map.mp hp
    rfl
  have hwf : ∀ p ∈ (aggregateLoop dp objects).2, p.2.table = p.1 := by
    rw [aggregateLoop, aggregateLoop_snd]
    exact foldl_accumulate_wf dp objects initialTableMap hwfinit
  have htable : ∀ x : Str,
      ((fun table =>
        let stat := (mapGet (aggregateLoop dp objects).2 table).getD (emptyTableStat table)
        { stat with sizeGB := toGB stat.sizeBytes }) x).table = x := by
    intro x
    dsimp only
    rcases hmg : mapGet (aggregateLoop dp objects).2 x with _ | stat
    · rfl
    · simpa using hwf (x, stat) (mem_of_mapGet_eq_some hmg)
  constructor
  · rw [aggregateTables, List.map_map]
    exact (List.map_congr_left (fun x _ => htable x)).trans (List.map_id TABLES)
  · intro t ht hz
    rw [aggregateTables, List.find?_map]
    have hcong : TABLES.find?
        ((fun s : TableStats => decide (s.table = t)) ∘
          (fun table =>
            let stat := (mapGet (aggregateLoop dp objects).2 table).getD (emptyTableStat table)
            { stat with sizeGB := toGB stat.sizeBytes })) =
        TABLES.find? (fun x => decide (x = t)) := by
      refine find?_congr_mem ?_
      intro a _
      simp only [Function.comp_apply]
      rw [htable a]
    rw [hcong]
    rw [find?_eq_self_of_mem ht]
    have hget : mapGet (aggregateLoop dp objects).2 t = some (emptyTableStat t) := by
      rw [aggregateLoop, aggregateLoop_snd, foldl_accumulate_no_match dp t objects _ hz]
      exact mapGet_map_pair emptyTableStat TABLES t ht
    rw [Option.map_some']
    dsimp only
    rw [hget]
    have hGB : toGB (Option.getD (some (emptyTableStat t)) (emptyTableStat t)).sizeBytes =
        JsNum.fin 0 := by
      simp [toGB, emptyTableStat, zero_div]
    rw [hGB]
    rfl

/-- Claim C8's theorem applied at the empty object set and the `sources`
table: every declared table appears, and the `sources` row is the all-zero
statistics record with its derived endpoint. -/
theorem claim_C8_fixed_table_rows_witness :
    ((aggregateTables (fun _ => JsNum.nan) []).map (fun s => s.table) = TABLES)
    ∧ (aggregateTables (fun _ => JsNum.nan) []).find?
        (fun s => s.table = ("sources".toList)) = some (emptyTableStat ("sources".toList)) :=
  ⟨(claim_C8_fixed_table_rows (fun _ => JsNum.nan) []).1,
    (claim_C8_fixed_table_rows (fun _ => JsNum.nan) []).2 ("sources".toList) (by decide)
      (fun o ho => absurd ho (List.not_mem_nil o))⟩

end Vera
